import Mathlib

/-!
Verification of `kafka/record/memory_records.py`.

The reader (`MemoryRecords`) is embedded directly from the source: the
buffer is a list of bytes, the scan position is an `Int` (Python ints are
unbounded and the position is computed from a signed 32-bit length field),
and the cached lookahead slice is a pair of Python slice indices into the
buffer.  Exceptions raised by `struct.unpack_from` are modelled by
`Option`/`Except`; the unbounded `while` loop inside `valid_bytes` is
modelled with explicit fuel.
-/

/-- `struct.calcsize(">q")`: offset of the 4-byte length field. -/
def LENGTH_OFFSET : Nat := 8

/-- `struct.calcsize(">qi")`: bytes of log overhead before the batch body. -/
def LOG_OVERHEAD : Nat := 12

/-- `struct.calcsize(">qii")`: offset of the magic byte. -/
def MAGIC_OFFSET : Nat := 16

/-- Big-endian value of a byte list. -/
def decodeU (bytes : List Nat) : Nat :=
  bytes.foldl (fun a x => a * 256 + x) 0

/-- The `n` bytes of `b` starting at index `i`. -/
def readBytes (b : List Nat) (i n : Nat) : List Nat :=
  (b.drop i).take n

/-- Two's-complement reinterpretation of an unsigned 32-bit value. -/
def i32ofU (u : Nat) : Int :=
  if 2 ^ 31 ≤ u then (u : Int) - 2 ^ 32 else (u : Int)

/-- Two's-complement reinterpretation of an unsigned byte. -/
def i8ofU (u : Nat) : Int :=
  if 128 ≤ u then (u : Int) - 256 else (u : Int)

/-- `struct.unpack_from(">i", b, o)` at a nonnegative, already normalised
offset: `none` models `struct.error`. -/
def readI32n (b : List Nat) (o : Nat) : Option Int :=
  if o + 4 ≤ b.length then some (i32ofU (decodeU (readBytes b o 4))) else none

/-- `struct.unpack_from(">i", b, off)`: a negative offset counts from the
end of the buffer; an out-of-range offset raises `struct.error` (`none`). -/
def readI32 (b : List Nat) (off : Int) : Option Int :=
  let o := if off < 0 then (b.length : Int) + off else off
  if 0 ≤ o then readI32n b o.toNat else none

/-- `struct.unpack_from(">b", b, o)` at a nonnegative normalised offset. -/
def readI8n (b : List Nat) (o : Nat) : Option Int :=
  if o + 1 ≤ b.length then some (i8ofU (decodeU (readBytes b o 1))) else none

/-- `struct.unpack_from(">b", b, off)` with Python offset normalisation. -/
def readI8 (b : List Nat) (off : Int) : Option Int :=
  let o := if off < 0 then (b.length : Int) + off else off
  if 0 ≤ o then readI8n b o.toNat else none

/-- Normalise one Python slice index against a list of length `n`. -/
def pyIndex (n : Nat) (i : Int) : Nat :=
  if i < 0 then (max ((n : Int) + i) 0).toNat else (min i (n : Int)).toNat

/-- Python slice `b[s:e]` (step 1). -/
def pySlice (b : List Nat) (s e : Int) : List Nat :=
  (b.take (pyIndex b.length e)).drop (pyIndex b.length s)

/-- The mutable state of `MemoryRecords`: buffer, scan position, the cached
lookahead slice (as the pair of Python slice bounds of the `memoryview`),
and the leftover byte count once scanning ran past the last batch. -/
structure MemoryRecords where
  _buffer : List Nat
  _pos : Int
  _next_slice : Option (Int × Int)
  _remaining_bytes : Option Int
deriving DecidableEq, Repr

/-- `MemoryRecords._cache_next`: `none` models a `struct.error` escaping
from `unpack_from` (impossible while the position is nonnegative). -/
def MemoryRecords.cache_next (r : MemoryRecords) : Option MemoryRecords :=
  let buffer_len : Int := r._buffer.length
  let remaining : Int := buffer_len - r._pos
  if remaining < (LOG_OVERHEAD : Int) then
    some { r with _remaining_bytes := some remaining, _next_slice := none }
  else
    match readI32 r._buffer (r._pos + (LENGTH_OFFSET : Int)) with
    | none => none
    | some length =>
      let slice_end := r._pos + (LOG_OVERHEAD : Int) + length
      if slice_end > buffer_len then
        some { r with _remaining_bytes := some remaining, _next_slice := none }
      else
        some { r with _next_slice := some (r._pos, slice_end), _pos := slice_end }

/-- `MemoryRecords.__init__`: position 0, no lookahead, no leftover count,
then one priming `_cache_next`. -/
def MemoryRecords.init (bytes_data : List Nat) : Option MemoryRecords :=
  MemoryRecords.cache_next
    { _buffer := bytes_data, _pos := 0, _next_slice := none, _remaining_bytes := none }

/-- `MemoryRecords.size_in_bytes`. -/
def MemoryRecords.size_in_bytes (r : MemoryRecords) : Nat :=
  r._buffer.length

/-- `MemoryRecords.has_next`. -/
def MemoryRecords.has_next (r : MemoryRecords) : Bool :=
  r._next_slice.isSome

/-- The `while self._remaining_bytes is None: self._cache_next()` loop of
`valid_bytes`, with fuel; `none` means the fuel ran out or a `struct.error`
was raised. -/
def MemoryRecords.scanToEnd : Nat → MemoryRecords → Option MemoryRecords
  | 0, r => if r._remaining_bytes.isSome then some r else none
  | fuel + 1, r =>
    if r._remaining_bytes.isSome then some r
    else
      match r.cache_next with
      | none => none
      | some r₁ => MemoryRecords.scanToEnd fuel r₁

/-- `MemoryRecords.valid_bytes`: scans the whole remaining buffer if the
leftover count is not yet known, then restores `_next_slice` and `_pos`
(but not `_remaining_bytes`) and returns `len(buffer) - remaining`. -/
def MemoryRecords.valid_bytes (r : MemoryRecords) (fuel : Nat) : Option (Int × MemoryRecords) :=
  match r._remaining_bytes with
  | some k => some ((r._buffer.length : Int) - k, r)
  | none =>
    match MemoryRecords.scanToEnd fuel r with
    | none => none
    | some r₁ =>
      let r' := { r₁ with _next_slice := r._next_slice, _pos := r._pos }
      some ((r'._buffer.length : Int) - r'._remaining_bytes.getD 0, r')

/-- The value returned by `next_batch`: which decoder class is constructed,
on which materialised slice (`LegacyRecordBatch(slice, magic)` or
`DefaultRecordBatch(slice)`). -/
inductive RecordBatch where
  | legacy (slice : List Nat) (magic : Int)
  | default (slice : List Nat)
deriving DecidableEq, Repr

/-- The bytes of the batch view a `next_batch` result wraps. -/
def RecordBatch.slice : RecordBatch → List Nat
  | .legacy s _ => s
  | .default s => s

/-- Errors `next_batch` can raise: `CorruptRecordError` from the minimum
size check, or a `struct.error` from `unpack_from`. -/
inductive RErr where
  | corruptRecord
  | structError
deriving DecidableEq, Repr

/-- `MemoryRecords.next_batch`.  `rov0` is `LegacyRecordBatch.RECORD_OVERHEAD_V0`
(defined in `legacy_records.py`, outside this module), so the minimum slice
size `MIN_SLICE` is `LOG_OVERHEAD + rov0`. -/
def MemoryRecords.next_batch (rov0 : Nat) (r : MemoryRecords) :
    Except RErr (Option RecordBatch × MemoryRecords) :=
  match r._next_slice with
  | none => .ok (none, r)
  | some (s, e) =>
    let next_slice := pySlice r._buffer s e
    if next_slice.length < LOG_OVERHEAD + rov0 then
      .error .corruptRecord
    else
      match r.cache_next with
      | none => .error .structError
      | some r' =>
        match readI8 next_slice (MAGIC_OFFSET : Int) with
        | none => .error .structError
        | some magic =>
          if magic ≤ 1 then .ok (some (.legacy next_slice magic), r')
          else .ok (some (.default next_slice), r')

/-!
The writer, `MemoryRecordsBuilder`.  Its encoder (`DefaultRecordBatchBuilder`
or `LegacyRecordBatchBuilder`, from `default_records.py` / `legacy_records.py`,
outside this module) is kept abstract.
-/

/-- Modelled from the spec: the BatchEncoder capability of §6
(`DefaultRecordBatchBuilder` / `LegacyRecordBatchBuilder` are not part of
this module).  `σ` is the encoder's private state, `μ` the record metadata
it returns, `ι` the `(timestamp, key, value, headers)` payload the writer
passes through unchanged.  `append` returns the metadata (or `none` when no
capacity remains) together with the encoder's next state; `build`
materialises the finished byte sequence, after which `producer_id` /
`producer_epoch` are readable. -/
structure BatchEncoder (σ μ ι : Type) where
  append : σ → Int → ι → Option μ × σ
  size : σ → Nat
  build : σ → List Nat × σ
  set_producer_state : σ → Int → Int → Int → Bool → σ
  producer_id : σ → Int
  producer_epoch : σ → Int

/-- A Python attribute value that is either `None` or an int. -/
inductive PyVal where
  | pyNone
  | pyInt (i : Int)
deriving DecidableEq, Repr

/-- Errors raised by `set_producer_state`. -/
inductive KErr where
  | unsupportedVersion
  | illegalState
deriving DecidableEq, Repr

/-- `AssertionError` raised by the constructor's `assert` statements. -/
inductive ConfigError where
  | assertion
deriving DecidableEq, Repr

/-- The state of `MemoryRecordsBuilder`.  `Option` on `_builder`, `_buffer`
models Python `None`; `Option` on `_producer_id` / `_producer_epoch` models
whether the `__slots__` attribute has been assigned at all (reading an
unassigned slot raises `AttributeError`).  `build_calls` is a ghost counter
of how many times `self._builder.build()` has run. -/
structure MemoryRecordsBuilder (σ : Type) where
  _builder : Option σ
  _batch_size : Nat
  _buffer : Option (List Nat)
  _next_offset : Int
  _closed : Bool
  _magic : Int
  _bytes_written : Nat
  _producer_id : Option PyVal
  _producer_epoch : Option Int
  build_calls : Nat
deriving DecidableEq, Repr

/-- `MemoryRecordsBuilder.__init__`.  `mkDefault` and `mkLegacy` construct
the (abstract) encoder from the arguments the source passes. -/
def MemoryRecordsBuilder.init {σ : Type}
    (mkDefault : Int → Int → Bool → Int → Int → Int → Nat → σ)
    (mkLegacy : Int → Int → Nat → σ)
    (magic compression_type : Int) (batch_size : Nat) (offset : Int)
    (transactional : Bool) (producer_id producer_epoch base_sequence : Int) :
    Except ConfigError (MemoryRecordsBuilder σ) :=
  if ¬(magic = 0 ∨ magic = 1 ∨ magic = 2) then .error .assertion
  else if ¬(compression_type = 0 ∨ compression_type = 1 ∨ compression_type = 2 ∨
            compression_type = 3 ∨ compression_type = 4) then .error .assertion
  else if 2 ≤ magic then
    if transactional ∧ producer_id = -1 then .error .assertion
    else if producer_id ≠ -1 ∧ producer_epoch = -1 then .error .assertion
    else if producer_id ≠ -1 ∧ base_sequence = -1 then .error .assertion
    else .ok
      { _builder := some (mkDefault magic compression_type transactional
                          producer_id producer_epoch base_sequence batch_size)
        _producer_id := some (.pyInt producer_id)
        _producer_epoch := some producer_epoch
        _batch_size := batch_size, _buffer := none, _next_offset := offset
        _closed := false, _magic := magic, _bytes_written := 0, build_calls := 0 }
  else
    if transactional ∨ producer_id ≠ -1 then .error .assertion
    else .ok
      { _builder := some (mkLegacy magic compression_type batch_size)
        _producer_id := some .pyNone
        _producer_epoch := none
        _batch_size := batch_size, _buffer := none, _next_offset := offset
        _closed := false, _magic := magic, _bytes_written := 0, build_calls := 0 }

/-- `MemoryRecordsBuilder.skip`. -/
def MemoryRecordsBuilder.skip {σ : Type} (w : MemoryRecordsBuilder σ)
    (offsets_to_skip : Int) : MemoryRecordsBuilder σ :=
  { w with _next_offset := w._next_offset + offsets_to_skip }

/-- `MemoryRecordsBuilder.append`: returns the metadata (or `none`) and the
writer's next state. -/
def MemoryRecordsBuilder.append {σ μ ι : Type} (enc : BatchEncoder σ μ ι)
    (w : MemoryRecordsBuilder σ) (inp : ι) : Option μ × MemoryRecordsBuilder σ :=
  if w._closed then (none, w)
  else
    match w._builder with
    | none => (none, w)
    | some s =>
      let offset := w._next_offset
      let (metadata, s') := enc.append s offset inp
      match metadata with
      | none => (none, { w with _builder := some s' })
      | some md => (some md, { w with _builder := some s', _next_offset := offset + 1 })

/-- `MemoryRecordsBuilder.set_producer_state`: the raised error (if any)
paired with the writer's state afterwards (both raises happen before any
mutation, so the state is returned unchanged there). -/
def MemoryRecordsBuilder.set_producer_state {σ μ ι : Type} (enc : BatchEncoder σ μ ι)
    (w : MemoryRecordsBuilder σ) (producer_id producer_epoch base_sequence : Int)
    (is_transactional : Bool) : Option KErr × MemoryRecordsBuilder σ :=
  if w._magic < 2 then (some .unsupportedVersion, w)
  else if w._closed then (some .illegalState, w)
  else
    (none, { w with
      _builder := w._builder.map
        (fun s => enc.set_producer_state s producer_id producer_epoch
                    base_sequence is_transactional)
      _producer_id := some (.pyInt producer_id) })

/-- The `producer_id` property. -/
def MemoryRecordsBuilder.producer_id {σ : Type} (w : MemoryRecordsBuilder σ) :
    Option PyVal :=
  w._producer_id

/-- The `producer_epoch` property: `none` models `AttributeError` (the
`__slots__` entry was never assigned). -/
def MemoryRecordsBuilder.producer_epoch {σ : Type} (w : MemoryRecordsBuilder σ) :
    Option Int :=
  w._producer_epoch

/-- `MemoryRecordsBuilder.close`.  On an open writer: capture the encoder's
size, build the buffer (incrementing the ghost counter), for magic 2 read
back producer id/epoch from the encoder, release the encoder, and mark
closed.  On a closed writer only the final `self._closed = True` runs.  An
open writer with no builder would raise on `None.size()` before mutating
anything, so that (unreachable) case returns the state unchanged. -/
def MemoryRecordsBuilder.close {σ μ ι : Type} (enc : BatchEncoder σ μ ι)
    (w : MemoryRecordsBuilder σ) : MemoryRecordsBuilder σ :=
  if w._closed then { w with _closed := true }
  else
    match w._builder with
    | none => w
    | some s =>
      let bytes_written := enc.size s
      let bs := enc.build s
      let w₁ := { w with _bytes_written := bytes_written, _buffer := some bs.1,
                         build_calls := w.build_calls + 1 }
      let w₂ :=
        if w._magic = 2 then
          { w₁ with _producer_id := some (.pyInt (enc.producer_id bs.2))
                    _producer_epoch := some (enc.producer_epoch bs.2) }
        else w₁
      { w₂ with _builder := none, _closed := true }

/-- Writer states reachable through the public operations. -/
inductive WReachable {σ μ ι : Type} (enc : BatchEncoder σ μ ι)
    (mkDefault : Int → Int → Bool → Int → Int → Int → Nat → σ)
    (mkLegacy : Int → Int → Nat → σ) : MemoryRecordsBuilder σ → Prop where
  | init : ∀ magic comp batch_size offset transactional pid pe bseq w,
      MemoryRecordsBuilder.init mkDefault mkLegacy magic comp batch_size offset
        transactional pid pe bseq = .ok w →
      WReachable enc mkDefault mkLegacy w
  | append : ∀ w inp, WReachable enc mkDefault mkLegacy w →
      WReachable enc mkDefault mkLegacy (MemoryRecordsBuilder.append enc w inp).2
  | skip : ∀ w n, WReachable enc mkDefault mkLegacy w →
      WReachable enc mkDefault mkLegacy (MemoryRecordsBuilder.skip w n)
  | sps : ∀ w a b c t, WReachable enc mkDefault mkLegacy w →
      WReachable enc mkDefault mkLegacy
        (MemoryRecordsBuilder.set_producer_state enc w a b c t).2
  | close : ∀ w, WReachable enc mkDefault mkLegacy w →
      WReachable enc mkDefault mkLegacy (MemoryRecordsBuilder.close enc w)

/-- Run `append` over a list of payloads, recording for each call the
metadata returned and, on success, the offset that was passed to the
encoder. -/
def MemoryRecordsBuilder.appendRun {σ μ ι : Type} (enc : BatchEncoder σ μ ι) :
    MemoryRecordsBuilder σ → List ι → List (Option (μ × Int)) × MemoryRecordsBuilder σ
  | w, [] => ([], w)
  | w, inp :: rest =>
    let r₁ := MemoryRecordsBuilder.append enc w inp
    let r₂ := MemoryRecordsBuilder.appendRun enc r₁.2 rest
    ((r₁.1.map (fun m => (m, w._next_offset))) :: r₂.1, r₂.2)

/-- The offsets handed to the encoder on the successful appends of a run. -/
def successOffsets {μ : Type} (run : List (Option (μ × Int))) : List Int :=
  (run.filterMap id).map Prod.snd

/-!
Further definitions used by the claims: observation functions over the
reader, well-formedness of an encoded batch, reachable-state predicates,
and the concrete data the witnesses evaluate on.
-/

/-- The part of a reader state the batch iteration depends on (buffer,
position, cached lookahead); `_remaining_bytes` is never read by
`next_batch`. -/
def MemoryRecords.core (r : MemoryRecords) : List Nat × Int × Option (Int × Int) :=
  (r._buffer, r._pos, r._next_slice)

/-- The trace of `n` successive `next_batch` calls (iteration stops at an
exception). -/
def MemoryRecords.runNext (rov0 : Nat) : Nat → MemoryRecords → List (Except RErr (Option RecordBatch))
  | 0, _ => []
  | n + 1, r =>
    match r.next_batch rov0 with
    | .error e => [.error e]
    | .ok (b, r') => .ok b :: MemoryRecords.runNext rov0 n r'

/-- A well-formed encoded batch for overhead parameter `rov0`: it meets the
minimum slice size and its 4-byte length field at offset 8 declares exactly
its actual size minus the 12-byte log overhead. -/
def wfBatch (rov0 : Nat) (b : List Nat) : Prop :=
  LOG_OVERHEAD + rov0 ≤ b.length ∧
  readI32n b LENGTH_OFFSET = some ((b.length : Int) - (LOG_OVERHEAD : Int))

instance (rov0 : Nat) (b : List Nat) : Decidable (wfBatch rov0 b) := by
  unfold wfBatch
  infer_instance

/-- The reader state expected at the batch boundary after the batches in
`A` have been consumed and the head of the remaining batch list has been
primed as the lookahead. -/
def primedFor (r : MemoryRecords) (A : List Nat) : List (List Nat) → Prop
  | [] => r._next_slice = none
  | b :: rest =>
    r._buffer = A ++ (b ++ rest.flatten) ∧
    r._pos = (A.length : Int) + (b.length : Int) ∧
    r._next_slice = some ((A.length : Int), (A.length : Int) + (b.length : Int))

/-- Executable check that iterating the reader yields exactly the given
batch slices in order, with `has_next` true before each call and false
(and `next_batch` returning `none` without state change) afterwards. -/
def readsExactlyB (rov0 : Nat) : MemoryRecords → List (List Nat) → Bool
  | r, [] =>
    !r.has_next &&
      (match r.next_batch rov0 with
       | .ok (none, r') => decide (r' = r)
       | _ => false)
  | r, b :: rest =>
    r.has_next &&
      (match r.next_batch rov0 with
       | .ok (some batch, r') => decide (batch.slice = b) && readsExactlyB rov0 r' rest
       | _ => false)

/-- Reader states reachable through the public operations. -/
inductive RReachable : MemoryRecords → Prop where
  | init : ∀ buf r, MemoryRecords.init buf = some r → RReachable r
  | next : ∀ rov0 r b r', RReachable r → r.next_batch rov0 = .ok (b, r') → RReachable r'
  | valid : ∀ fuel r v r', RReachable r → r.valid_bytes fuel = some (v, r') → RReachable r'

/-- A single well-formed legacy batch (magic 1, length field 14, 26 bytes). -/
def cbuf1 : List Nat := [0, 0, 0, 0, 0, 0, 0, 0, 0, 0, 0, 14, 0, 0, 0, 0, 1, 0, 0, 0, 0, 0, 0, 0, 0, 0]

/-- A single well-formed modern batch (magic 2, length field 14, 26 bytes). -/
def cbuf2 : List Nat := [0, 0, 0, 0, 0, 0, 0, 0, 0, 0, 0, 14, 0, 0, 0, 0, 2, 0, 0, 0, 0, 0, 0, 0, 0, 0]

/-- The reader state right after `MemoryRecords(cbuf1)`: first batch primed. -/
def crdr1 : MemoryRecords :=
  { _buffer := cbuf1, _pos := 26, _next_slice := some (0, 26), _remaining_bytes := none }

/-- `crdr1` after its lookahead refresh ran off the end of the buffer. -/
def crdr1End : MemoryRecords :=
  { _buffer := cbuf1, _pos := 26, _next_slice := none, _remaining_bytes := some 0 }

/-- `crdr1` after a mid-iteration `valid_bytes` call: position and
lookahead restored, leftover count retained. -/
def crdr1Mid : MemoryRecords :=
  { _buffer := cbuf1, _pos := 26, _next_slice := some (0, 26), _remaining_bytes := some 0 }

/-- A trivial concrete instantiation of the abstract encoder, used by the
witnesses. -/
def encU : BatchEncoder Unit Unit Unit :=
  { append := fun s _ _ => (some (), s)
    size := fun _ => 0
    build := fun s => ([], s)
    set_producer_state := fun s _ _ _ _ => s
    producer_id := fun _ => 7
    producer_epoch := fun _ => 3 }

/-- Trivial default-encoder constructor for the witnesses. -/
def mkDU : Int → Int → Bool → Int → Int → Int → Nat → Unit := fun _ _ _ _ _ _ _ => ()

/-- Trivial legacy-encoder constructor for the witnesses. -/
def mkLU : Int → Int → Nat → Unit := fun _ _ _ => ()

/-- The writer produced by `MemoryRecordsBuilder(magic=0, compression_type=0,
batch_size=100)`. -/
def wLeg : MemoryRecordsBuilder Unit :=
  { _builder := some (), _batch_size := 100, _buffer := none, _next_offset := 0
    _closed := false, _magic := 0, _bytes_written := 0
    _producer_id := some .pyNone, _producer_epoch := none, build_calls := 0 }

/-- An open modern-format writer (magic 2). -/
def wMod : MemoryRecordsBuilder Unit :=
  { _builder := some (), _batch_size := 100, _buffer := none, _next_offset := 5
    _closed := false, _magic := 2, _bytes_written := 0
    _producer_id := some (.pyInt 7), _producer_epoch := some 3, build_calls := 0 }

/-- The construction-parameter combinations the spec calls an
invalid-configuration error (for supported magic and compression values). -/
def invalidConfig (magic : Int) (transactional : Bool)
    (producer_id producer_epoch base_sequence : Int) : Prop :=
  (2 ≤ magic ∧
    ((transactional ∧ producer_id = -1) ∨
     (producer_id ≠ -1 ∧ producer_epoch = -1) ∨
     (producer_id ≠ -1 ∧ base_sequence = -1))) ∨
  (magic < 2 ∧ (transactional ∨ producer_id ≠ -1))

instance (magic : Int) (transactional : Bool) (producer_id producer_epoch base_sequence : Int) :
    Decidable (invalidConfig magic transactional producer_id producer_epoch base_sequence) := by
  unfold invalidConfig
  infer_instance

/-!
Helper lemmas about the byte readers and the scan step.
-/

/-- `unpack_from` at a nonnegative offset reduces to the normalised reader. -/
lemma readI32_nonneg (b : List Nat) (o : Int) (h : 0 ≤ o) :
    readI32 b o = readI32n b o.toNat := by
  have h' : ¬o < 0 := by omega
  simp only [readI32, if_neg h', if_pos h]

/-- `unpack_from(">b", ...)` at a nonnegative offset. -/
lemma readI8_nonneg (b : List Nat) (o : Int) (h : 0 ≤ o) :
    readI8 b o = readI8n b o.toNat := by
  have h' : ¬o < 0 := by omega
  simp only [readI8, if_neg h', if_pos h]

/-- An in-range 32-bit read succeeds. -/
lemma readI32n_some (b : List Nat) (o : Nat) (h : o + 4 ≤ b.length) :
    readI32n b o = some (i32ofU (decodeU (readBytes b o 4))) := by
  simp [readI32n, h]

/-- An in-range byte read succeeds. -/
lemma readI8n_some (b : List Nat) (o : Nat) (h : o + 1 ≤ b.length) :
    readI8n b o = some (i8ofU (decodeU (readBytes b o 1))) := by
  simp [readI8n, h]

/-- Reading past a known prefix reads the suffix. -/
lemma readI32n_append (A rest : List Nat) (o : Nat) (h : o + 4 ≤ rest.length) :
    readI32n (A ++ rest) (A.length + o) = readI32n rest o := by
  have hb : readBytes (A ++ rest) (A.length + o) 4 = readBytes rest o 4 := by
    simp only [readBytes]
    rw [← List.drop_drop, List.drop_left]
  rw [readI32n, readI32n, if_pos (by simp; omega), if_pos h, hb]

/-- A read wholly inside the first part of an append ignores the rest. -/
lemma readI32n_prefix (b C : List Nat) (o : Nat) (h : o + 4 ≤ b.length) :
    readI32n (b ++ C) o = readI32n b o := by
  have hb : readBytes (b ++ C) o 4 = readBytes b o 4 := by
    simp only [readBytes]
    rw [List.drop_append_of_le_length (by omega),
        List.take_append_of_le_length (by simp; omega)]
  rw [readI32n, readI32n, if_pos (by simp; omega), if_pos h, hb]

/-- The slice `[|A| : |A| + |b|)` of `A ++ b ++ C` is exactly `b`. -/
lemma pySlice_block (A b C : List Nat) :
    pySlice (A ++ (b ++ C)) (A.length : Int) ((A.length : Int) + (b.length : Int)) = b := by
  have hlen : (A ++ (b ++ C)).length = A.length + b.length + C.length := by simp; omega
  have hs : pyIndex (A ++ (b ++ C)).length (A.length : Int) = A.length := by
    simp only [pyIndex, hlen]
    rw [if_neg (by omega)]
    omega
  have he : pyIndex (A ++ (b ++ C)).length ((A.length : Int) + (b.length : Int)) =
      A.length + b.length := by
    simp only [pyIndex, hlen]
    rw [if_neg (by omega)]
    omega
  rw [pySlice, hs, he, ← List.append_assoc]
  have ht : ((A ++ b) ++ C).take (A.length + b.length) = A ++ b := by
    have := List.take_left (A ++ b) C
    simpa using this
  rw [ht, List.drop_left]

/-- The scan step in the truncation case. -/
lemma cache_next_trunc (r : MemoryRecords)
    (h : (r._buffer.length : Int) - r._pos < (LOG_OVERHEAD : Int)) :
    r.cache_next = some { r with
      _remaining_bytes := some ((r._buffer.length : Int) - r._pos),
      _next_slice := none } := by
  simp only [MemoryRecords.cache_next]
  rw [if_pos h]

/-- The scan step when at least 12 bytes remain and the position is
nonnegative: the length field is read and the two remaining branches are
decided by `slice_end`. -/
lemma cache_next_read (r : MemoryRecords) (hpos : 0 ≤ r._pos)
    (h : (LOG_OVERHEAD : Int) ≤ (r._buffer.length : Int) - r._pos) :
    r.cache_next =
      (let length := i32ofU (decodeU (readBytes r._buffer (r._pos + (LENGTH_OFFSET : Int)).toNat 4))
       let slice_end := r._pos + (LOG_OVERHEAD : Int) + length
       if slice_end > (r._buffer.length : Int) then
         some { r with
           _remaining_bytes := some ((r._buffer.length : Int) - r._pos),
           _next_slice := none }
       else
         some { r with _next_slice := some (r._pos, slice_end), _pos := slice_end }) := by
  have hread : readI32 r._buffer (r._pos + (LENGTH_OFFSET : Int)) =
      some (i32ofU (decodeU (readBytes r._buffer (r._pos + (LENGTH_OFFSET : Int)).toNat 4))) := by
    rw [readI32_nonneg _ _ (by simp [LENGTH_OFFSET]; omega)]
    exact readI32n_some _ _ (by simp only [LENGTH_OFFSET, LOG_OVERHEAD] at h ⊢; omega)
  simp only [MemoryRecords.cache_next]
  rw [if_neg (by omega), hread]

/-- With a nonnegative position the scan step never raises. -/
lemma cache_next_some_of_nonneg (r : MemoryRecords) (hpos : 0 ≤ r._pos) :
    ∃ r', r.cache_next = some r' := by
  by_cases h : (r._buffer.length : Int) - r._pos < (LOG_OVERHEAD : Int)
  · exact ⟨_, cache_next_trunc r h⟩
  · rw [cache_next_read r hpos (by omega)]
    dsimp only
    split
    · exact ⟨_, rfl⟩
    · exact ⟨_, rfl⟩

/-- The scan step never changes the buffer. -/
lemma cache_next_buffer (r r' : MemoryRecords) (h : r.cache_next = some r') :
    r'._buffer = r._buffer := by
  simp only [MemoryRecords.cache_next] at h
  split at h
  · cases h; rfl
  · split at h
    · exact absurd h (by simp)
    · split at h
      · cases h; rfl
      · cases h; rfl

/-- C2: the scan step (`_cache_next`), run from any nonnegative position in
any buffer, truncates (recording the remaining byte count as leftover and
clearing the lookahead) when fewer than 12 bytes remain; otherwise it reads
the 4-byte length at `position + 8`, and either truncates identically when
`position + 12 + length` exceeds the buffer length, or caches the view
`[position, end)` and advances the position to `end`.  Both truncation
branches return normally (no error). -/
theorem claim_C2 (r : MemoryRecords) (hpos : 0 ≤ r._pos) :
    ((r._buffer.length : Int) - r._pos < (LOG_OVERHEAD : Int) →
      r.cache_next = some { r with
        _remaining_bytes := some ((r._buffer.length : Int) - r._pos),
        _next_slice := none }) ∧
    ((LOG_OVERHEAD : Int) ≤ (r._buffer.length : Int) - r._pos →
      (readI32 r._buffer (r._pos + (LENGTH_OFFSET : Int))).isSome ∧
      ∀ length, readI32 r._buffer (r._pos + (LENGTH_OFFSET : Int)) = some length →
        (((r._buffer.length : Int) < r._pos + (LOG_OVERHEAD : Int) + length →
          r.cache_next = some { r with
            _remaining_bytes := some ((r._buffer.length : Int) - r._pos),
            _next_slice := none }) ∧
         (r._pos + (LOG_OVERHEAD : Int) + length ≤ (r._buffer.length : Int) →
          r.cache_next = some { r with
            _next_slice := some (r._pos, r._pos + (LOG_OVERHEAD : Int) + length),
            _pos := r._pos + (LOG_OVERHEAD : Int) + length }))) := by
  constructor
  · exact cache_next_trunc r
  · intro h
    have hread : readI32 r._buffer (r._pos + (LENGTH_OFFSET : Int)) =
        some (i32ofU (decodeU (readBytes r._buffer (r._pos + (LENGTH_OFFSET : Int)).toNat 4))) := by
      rw [readI32_nonneg _ _ (by simp [LENGTH_OFFSET]; omega)]
      exact readI32n_some _ _ (by simp only [LENGTH_OFFSET, LOG_OVERHEAD] at h ⊢; omega)
    refine ⟨by rw [hread]; rfl, ?_⟩
    intro length hlen
    rw [hread] at hlen
    cases hlen
    rw [cache_next_read r hpos h]
    constructor
    · intro hgt
      dsimp only
      rw [if_pos (by omega)]
    · intro hle
      dsimp only
      rw [if_neg (by omega)]

/-- C4: `next_batch` returns `none` when no lookahead is cached; it raises
`CorruptRecordError` (without advancing) exactly when the cached view is
shorter than `MIN_SLICE = LOG_OVERHEAD + RECORD_OVERHEAD_V0`; otherwise it
re-scans and returns a `LegacyRecordBatch` when the signed magic byte at
offset 16 of the view is at most 1, and a `DefaultRecordBatch` when it is
at least 2. -/
theorem claim_C4 (rov0 : Nat) (r : MemoryRecords) (h5 : 5 ≤ rov0) (hpos : 0 ≤ r._pos) :
    (r._next_slice = none → r.next_batch rov0 = .ok (none, r)) ∧
    (∀ s e, r._next_slice = some (s, e) →
      ((pySlice r._buffer s e).length < LOG_OVERHEAD + rov0 ↔
        r.next_batch rov0 = .error .corruptRecord) ∧
      (LOG_OVERHEAD + rov0 ≤ (pySlice r._buffer s e).length →
        r.cache_next.isSome ∧
        (readI8 (pySlice r._buffer s e) (MAGIC_OFFSET : Int)).isSome ∧
        ∀ r' m, r.cache_next = some r' →
          readI8 (pySlice r._buffer s e) (MAGIC_OFFSET : Int) = some m →
          ((m ≤ 1 →
            r.next_batch rov0 = .ok (some (.legacy (pySlice r._buffer s e) m), r')) ∧
           (2 ≤ m →
            r.next_batch rov0 = .ok (some (.default (pySlice r._buffer s e)), r'))))) := by
  constructor
  · intro h
    simp only [MemoryRecords.next_batch, h]
  · intro s e hs
    obtain ⟨rnext, hrnext⟩ := cache_next_some_of_nonneg r hpos
    constructor
    · constructor
      · intro hlt
        simp only [MemoryRecords.next_batch, hs]
        rw [if_pos hlt]
      · intro hcorr
        by_cases hlt : (pySlice r._buffer s e).length < LOG_OVERHEAD + rov0
        · exact hlt
        · exfalso
          rcases hm : readI8 (pySlice r._buffer s e) (MAGIC_OFFSET : Int) with _ | m
          · simp only [MemoryRecords.next_batch, hs, if_neg hlt, hrnext, hm] at hcorr
            exact absurd hcorr (by simp)
          · simp only [MemoryRecords.next_batch, hs, if_neg hlt, hrnext, hm] at hcorr
            by_cases h1 : m ≤ 1
            · rw [if_pos h1] at hcorr
              exact absurd hcorr (by simp)
            · rw [if_neg h1] at hcorr
              exact absurd hcorr (by simp)
    · intro hge
      have hmagic : readI8 (pySlice r._buffer s e) (MAGIC_OFFSET : Int) =
          some (i8ofU (decodeU (readBytes (pySlice r._buffer s e) MAGIC_OFFSET 1))) := by
        rw [readI8_nonneg _ _ (by simp [MAGIC_OFFSET])]
        have ht : ((MAGIC_OFFSET : Nat) : Int).toNat = MAGIC_OFFSET := by omega
        rw [ht]
        exact readI8n_some _ _ (by simp only [MAGIC_OFFSET, LOG_OVERHEAD] at hge ⊢; omega)
      refine ⟨by rw [hrnext]; rfl, by rw [hmagic]; rfl, ?_⟩
      intro r' m hr' hm
      rw [hrnext] at hr'
      cases hr'
      have hnlt : ¬(pySlice r._buffer s e).length < LOG_OVERHEAD + rov0 := by omega
      constructor
      · intro h1
        simp only [MemoryRecords.next_batch, hs, if_neg hnlt, hrnext, hm, if_pos h1]
      · intro h2
        have h1 : ¬m ≤ 1 := by omega
        simp only [MemoryRecords.next_batch, hs, if_neg hnlt, hrnext, hm, if_neg h1]

/-- The scan step's effect on the observable core is determined by the
core alone. -/
lemma cache_next_core (r₁ r₂ : MemoryRecords) (h : r₁.core = r₂.core) :
    r₁.cache_next.map MemoryRecords.core = r₂.cache_next.map MemoryRecords.core := by
  simp only [MemoryRecords.core, Prod.mk.injEq] at h
  obtain ⟨hb, hp, hs⟩ := h
  simp only [MemoryRecords.cache_next, hb, hp]
  split
  · simp [MemoryRecords.core, hb, hp]
  · split
    · rfl
    · split
      · simp [MemoryRecords.core, hb, hp]
      · simp [MemoryRecords.core, hb, hp]

/-- `next_batch` is likewise determined by the observable core. -/
lemma next_batch_core (rov0 : Nat) (r₁ r₂ : MemoryRecords) (h : r₁.core = r₂.core) :
    (r₁.next_batch rov0).map (fun p => (p.1, p.2.core)) =
      (r₂.next_batch rov0).map (fun p => (p.1, p.2.core)) := by
  have hcc := cache_next_core r₁ r₂ h
  have hcore := h
  simp only [MemoryRecords.core, Prod.mk.injEq] at h
  obtain ⟨hb, hp, hs⟩ := h
  rcases hns : r₂._next_slice with _ | ⟨s, e⟩
  · rw [hns] at hs
    simp only [MemoryRecords.next_batch, hs, hns]
    simp [Except.map, hcore]
  · rw [hns] at hs
    simp only [MemoryRecords.next_batch, hs, hns, hb]
    by_cases hlt : (pySlice r₂._buffer s e).length < LOG_OVERHEAD + rov0
    · rw [if_pos hlt, if_pos hlt]
    · rw [if_neg hlt, if_neg hlt]
      rcases h₁ : r₁.cache_next with _ | c₁ <;> rcases h₂ : r₂.cache_next with _ | c₂
      · rfl
      · rw [h₁, h₂] at hcc
        exact absurd hcc (by simp)
      · rw [h₁, h₂] at hcc
        exact absurd hcc (by simp)
      · rw [h₁, h₂] at hcc
        simp only [Option.map_some', Option.some.injEq] at hcc
        rcases hm : readI8 (pySlice r₂._buffer s e) (MAGIC_OFFSET : Int) with _ | m
        · rfl
        · by_cases h1 : m ≤ 1
          · simp [if_pos h1, Except.map, hcc]
          · simp [if_neg h1, Except.map, hcc]

/-- Iteration traces only depend on the observable core. -/
lemma runNext_core (rov0 n : Nat) : ∀ r₁ r₂ : MemoryRecords, r₁.core = r₂.core →
    MemoryRecords.runNext rov0 n r₁ = MemoryRecords.runNext rov0 n r₂ := by
  induction n with
  | zero => intro r₁ r₂ _; rfl
  | succ n ih =>
    intro r₁ r₂ h
    have hnb := next_batch_core rov0 r₁ r₂ h
    rcases h₁ : r₁.next_batch rov0 with e₁ | ⟨b₁, s₁⟩ <;>
      rcases h₂ : r₂.next_batch rov0 with e₂ | ⟨b₂, s₂⟩ <;>
      rw [h₁, h₂] at hnb <;>
      simp only [Except.map, Prod.mk.injEq] at hnb
    · cases hnb
      simp [MemoryRecords.runNext, h₁, h₂]
    · exact absurd hnb (by simp)
    · exact absurd hnb (by simp)
    · simp only [Except.ok.injEq, Prod.mk.injEq] at hnb
      obtain ⟨hb', hcore⟩ := hnb
      cases hb'
      simp only [MemoryRecords.runNext, h₁, h₂]
      rw [ih s₁ s₂ hcore]

/-- The `while` loop of `valid_bytes` ends with a known leftover count and
never touches the buffer. -/
lemma scanToEnd_post : ∀ (fuel : Nat) (r r' : MemoryRecords),
    MemoryRecords.scanToEnd fuel r = some r' →
    r'._remaining_bytes.isSome ∧ r'._buffer = r._buffer := by
  intro fuel
  induction fuel with
  | zero =>
    intro r r' h
    simp only [MemoryRecords.scanToEnd] at h
    split at h
    · cases h
      exact ⟨by assumption, rfl⟩
    · exact absurd h (by simp)
  | succ fuel ih =>
    intro r r' h
    simp only [MemoryRecords.scanToEnd] at h
    split at h
    · cases h
      exact ⟨by assumption, rfl⟩
    · rcases hc : r.cache_next with _ | r₁
      · rw [hc] at h
        exact absurd h (by simp)
      · rw [hc] at h
        obtain ⟨h₁, h₂⟩ := ih r₁ r' h
        exact ⟨h₁, h₂.trans (cache_next_buffer r r₁ hc)⟩

/-- C5: whenever `valid_bytes` returns, it returns the total buffer length
minus the leftover byte count it computed, restores the scan position and
the cached lookahead exactly, and leaves every subsequent `next_batch`
trace unchanged. -/
theorem claim_C5 (r : MemoryRecords) (fuel : Nat) (v : Int) (r' : MemoryRecords)
    (h : r.valid_bytes fuel = some (v, r')) :
    r'._buffer = r._buffer ∧ r'._pos = r._pos ∧ r'._next_slice = r._next_slice ∧
    (∃ k, r'._remaining_bytes = some k ∧ v = (r._buffer.length : Int) - k) ∧
    (∀ rov0 n, MemoryRecords.runNext rov0 n r' = MemoryRecords.runNext rov0 n r) := by
  unfold MemoryRecords.valid_bytes at h
  rcases hrem : r._remaining_bytes with _ | k
  · rw [hrem] at h
    rcases hscan : MemoryRecords.scanToEnd fuel r with _ | r₁
    · rw [hscan] at h
      exact absurd h (by simp)
    · rw [hscan] at h
      obtain ⟨hsome, hbuf⟩ := scanToEnd_post fuel r r₁ hscan
      simp only [Option.some.injEq, Prod.mk.injEq] at h
      obtain ⟨hv, hr'⟩ := h
      rcases hk : r₁._remaining_bytes with _ | k₁
      · rw [hk] at hsome
        exact absurd hsome (by simp)
      · subst hr'
        refine ⟨hbuf, rfl, rfl, ⟨k₁, hk, ?_⟩, ?_⟩
        · rw [← hv]
          simp [hbuf, hk]
        · intro rov0 n
          apply runNext_core
          simp [MemoryRecords.core, hbuf]
  · rw [hrem] at h
    simp only [Option.some.injEq, Prod.mk.injEq] at h
    obtain ⟨hv, hr'⟩ := h
    subst hr'
    exact ⟨rfl, rfl, rfl, ⟨k, hrem, hv.symm⟩, fun _ _ => rfl⟩

/-- Witness for C5 at a concrete mid-iteration state. -/
theorem claim_C5_witness :
    crdr1Mid._buffer = crdr1._buffer ∧ crdr1Mid._pos = crdr1._pos ∧
    crdr1Mid._next_slice = crdr1._next_slice ∧
    (∃ k, crdr1Mid._remaining_bytes = some k ∧ (26 : Int) = (crdr1._buffer.length : Int) - k) ∧
    (∀ rov0 n, MemoryRecords.runNext rov0 n crdr1Mid = MemoryRecords.runNext rov0 n crdr1) :=
  claim_C5 crdr1 2 26 crdr1Mid (by decide)

/-- Every scan-step result has a lookahead or a known leftover count. -/
lemma cache_next_inv (r r' : MemoryRecords) (h : r.cache_next = some r') :
    r'._next_slice.isSome ∨ r'._remaining_bytes.isSome := by
  simp only [MemoryRecords.cache_next] at h
  split at h
  · cases h
    exact Or.inr rfl
  · split at h
    · exact absurd h (by simp)
    · split at h
      · cases h
        exact Or.inr rfl
      · cases h
        exact Or.inl rfl

/-- C6 counterexample: after constructing a reader over one complete batch
and calling `valid_bytes` mid-iteration, the lookahead is still cached
*and* the leftover count is known — "never both" fails. -/
theorem claim_C6_counterexample :
    ((MemoryRecords.init cbuf1).bind (fun r => r.valid_bytes 2)).map
      (fun p => p.2._next_slice.isSome && p.2._remaining_bytes.isSome) = some true := by
  decide

/-- C6 (amended): in every reader state reachable through the public
operations, at least one of {lookahead cached, leftover count known}
holds — never neither; after a mid-iteration `valid_bytes` call both may
hold at once. -/
theorem claim_C6 (r : MemoryRecords) (h : RReachable r) :
    r._next_slice.isSome ∨ r._remaining_bytes.isSome := by
  induction h with
  | init buf r hinit => exact cache_next_inv _ r hinit
  | next rov0 r b r' _ hstep ih =>
    rcases hs : r._next_slice with _ | ⟨s, e⟩
    · simp only [MemoryRecords.next_batch, hs] at hstep
      cases hstep
      exact ih
    · simp only [MemoryRecords.next_batch, hs] at hstep
      split at hstep
      · exact absurd hstep (by simp)
      · rcases hc : r.cache_next with _ | r₁
        · rw [hc] at hstep
          exact absurd hstep (by simp)
        · rcases hm : readI8 (pySlice r._buffer s e) (MAGIC_OFFSET : Int) with _ | m
          · simp only [hc, hm] at hstep
            exact absurd hstep (by simp)
          · simp only [hc, hm] at hstep
            by_cases h1 : m ≤ 1
            · rw [if_pos h1] at hstep
              simp only [Except.ok.injEq, Prod.mk.injEq] at hstep
              obtain ⟨-, hr'⟩ := hstep
              subst hr'
              exact cache_next_inv r r₁ hc
            · rw [if_neg h1] at hstep
              simp only [Except.ok.injEq, Prod.mk.injEq] at hstep
              obtain ⟨-, hr'⟩ := hstep
              subst hr'
              exact cache_next_inv r r₁ hc
  | valid fuel r v r' _ hstep ih =>
    unfold MemoryRecords.valid_bytes at hstep
    rcases hrem : r._remaining_bytes with _ | k
    · rw [hrem] at hstep
      rcases hscan : MemoryRecords.scanToEnd fuel r with _ | r₁
      · rw [hscan] at hstep
        exact absurd hstep (by simp)
      · rw [hscan] at hstep
        simp only [Option.some.injEq, Prod.mk.injEq] at hstep
        obtain ⟨-, hr'⟩ := hstep
        subst hr'
        exact Or.inr (scanToEnd_post fuel r r₁ hscan).1
    · rw [hrem] at hstep
      simp only [Option.some.injEq, Prod.mk.injEq] at hstep
      obtain ⟨-, hr'⟩ := hstep
      subst hr'
      exact Or.inr (by simp [hrem])

/-- Witness for the amended C6 at a concrete reachable state. -/
theorem claim_C6_witness :
    crdr1._next_slice.isSome ∨ crdr1._remaining_bytes.isSome :=
  claim_C6 crdr1 (RReachable.init cbuf1 crdr1 (by decide))

/-- Witness for C2: scanning `cbuf1` from position 0 caches the view
`[0, 26)` and advances to 26. -/
theorem claim_C2_witness :
    MemoryRecords.cache_next
        { _buffer := cbuf1, _pos := 0, _next_slice := none, _remaining_bytes := none } =
      some crdr1 := by
  have h := ((claim_C2
      { _buffer := cbuf1, _pos := 0, _next_slice := none, _remaining_bytes := none }
      (by decide)).2 (by decide)).2 14 (by decide)
  rw [h.2 (by decide)]
  decide

/-- Witness for C4: the primed reader over `cbuf1` returns a legacy batch
wrapping the whole buffer (its magic byte is 1). -/
theorem claim_C4_witness :
    crdr1.next_batch 14 = .ok (some (.legacy (pySlice cbuf1 0 26) 1), crdr1End) := by
  have h := ((claim_C4 14 crdr1 (by decide) (by decide)).2 0 26 (by decide)).2 (by decide)
  exact (h.2.2 crdr1End 1 (by decide) (by decide)).1 (by decide)

/-- Re-assigning `_closed := true` on an already-closed writer is the
identity. -/
lemma closed_update_eta {σ : Type} (w : MemoryRecordsBuilder σ) (h : w._closed = true) :
    ({ w with _closed := true } : MemoryRecordsBuilder σ) = w := by
  cases w
  simp_all

/-- `close` on a closed writer changes nothing. -/
lemma close_of_closed {σ μ ι : Type} (enc : BatchEncoder σ μ ι) (w : MemoryRecordsBuilder σ)
    (h : w._closed = true) : MemoryRecordsBuilder.close enc w = w := by
  simp only [MemoryRecordsBuilder.close, if_pos h]
  exact closed_update_eta w h

/-- `close` on the (unreachable) open builder-less state changes nothing:
the first statement of the `if` body would raise before mutating. -/
lemma close_of_open_nobuilder {σ μ ι : Type} (enc : BatchEncoder σ μ ι)
    (w : MemoryRecordsBuilder σ) (h : ¬w._closed = true) (hb : w._builder = none) :
    MemoryRecordsBuilder.close enc w = w := by
  simp only [MemoryRecordsBuilder.close, if_neg h, hb]

/-- A first `close` on an open writer with a builder marks it closed. -/
lemma close_closed_flag {σ μ ι : Type} (enc : BatchEncoder σ μ ι)
    (w : MemoryRecordsBuilder σ) (h : ¬w._closed = true) (s : σ) (hb : w._builder = some s) :
    (MemoryRecordsBuilder.close enc w)._closed = true := by
  simp only [MemoryRecordsBuilder.close, if_neg h, hb]

/-- A first `close` on an open writer with a builder bumps the ghost
build counter by one. -/
lemma close_calls {σ μ ι : Type} (enc : BatchEncoder σ μ ι)
    (w : MemoryRecordsBuilder σ) (h : ¬w._closed = true) (s : σ) (hb : w._builder = some s) :
    (MemoryRecordsBuilder.close enc w).build_calls = w.build_calls + 1 := by
  simp only [MemoryRecordsBuilder.close, if_neg h, hb]
  by_cases hm : w._magic = 2 <;> simp [hm]

/-- `close` is idempotent as a state transformer. -/
lemma close_close {σ μ ι : Type} (enc : BatchEncoder σ μ ι) (w : MemoryRecordsBuilder σ) :
    MemoryRecordsBuilder.close enc (MemoryRecordsBuilder.close enc w) =
      MemoryRecordsBuilder.close enc w := by
  by_cases hc : w._closed
  · rw [close_of_closed enc w hc]
    exact close_of_closed enc w hc
  · rcases hb : w._builder with _ | s
    · rw [close_of_open_nobuilder enc w hc hb]
      exact close_of_open_nobuilder enc w hc hb
    · exact close_of_closed enc _ (close_closed_flag enc w hc s hb)

/-- `append` never touches magic, epoch, the closed flag or the build
counter. -/
lemma append_pres {σ μ ι : Type} (enc : BatchEncoder σ μ ι) (w : MemoryRecordsBuilder σ)
    (inp : ι) :
    (MemoryRecordsBuilder.append enc w inp).2._magic = w._magic ∧
    (MemoryRecordsBuilder.append enc w inp).2._producer_epoch = w._producer_epoch ∧
    (MemoryRecordsBuilder.append enc w inp).2._closed = w._closed ∧
    (MemoryRecordsBuilder.append enc w inp).2.build_calls = w.build_calls ∧
    (MemoryRecordsBuilder.append enc w inp).2._builder.isSome = w._builder.isSome := by
  by_cases hc : w._closed
  · simp [MemoryRecordsBuilder.append, if_pos hc]
  · rcases hb : w._builder with _ | s
    · simp [MemoryRecordsBuilder.append, if_neg hc, hb]
    · rcases henc : enc.append s w._next_offset inp with ⟨md, s'⟩
      rcases md with _ | m <;> simp [MemoryRecordsBuilder.append, if_neg hc, hb, henc]

/-- `append`'s effect on the next offset: unchanged on refusal, advanced
by exactly one on success. -/
lemma append_offset {σ μ ι : Type} (enc : BatchEncoder σ μ ι) (w : MemoryRecordsBuilder σ)
    (inp : ι) :
    ((MemoryRecordsBuilder.append enc w inp).1 = none →
      (MemoryRecordsBuilder.append enc w inp).2._next_offset = w._next_offset) ∧
    (∀ m, (MemoryRecordsBuilder.append enc w inp).1 = some m →
      (MemoryRecordsBuilder.append enc w inp).2._next_offset = w._next_offset + 1) := by
  by_cases hc : w._closed
  · simp [MemoryRecordsBuilder.append, if_pos hc]
  · rcases hb : w._builder with _ | s
    · simp [MemoryRecordsBuilder.append, if_neg hc, hb]
    · rcases henc : enc.append s w._next_offset inp with ⟨md, s'⟩
      rcases md with _ | m <;> simp [MemoryRecordsBuilder.append, if_neg hc, hb, henc]

/-- `set_producer_state` never touches magic, epoch, the closed flag, the
build counter, or whether a builder is held. -/
lemma sps_pres {σ μ ι : Type} (enc : BatchEncoder σ μ ι) (w : MemoryRecordsBuilder σ)
    (a b c : Int) (t : Bool) :
    (MemoryRecordsBuilder.set_producer_state enc w a b c t).2._magic = w._magic ∧
    (MemoryRecordsBuilder.set_producer_state enc w a b c t).2._producer_epoch = w._producer_epoch ∧
    (MemoryRecordsBuilder.set_producer_state enc w a b c t).2._closed = w._closed ∧
    (MemoryRecordsBuilder.set_producer_state enc w a b c t).2.build_calls = w.build_calls ∧
    (MemoryRecordsBuilder.set_producer_state enc w a b c t).2._builder.isSome = w._builder.isSome := by
  by_cases h1 : w._magic < 2
  · simp [MemoryRecordsBuilder.set_producer_state, if_pos h1]
  · by_cases h2 : w._closed
    · simp [MemoryRecordsBuilder.set_producer_state, if_neg h1, if_pos h2]
    · rcases hb : w._builder with _ | s <;>
        simp [MemoryRecordsBuilder.set_producer_state, if_neg h1, if_neg h2, hb]

/-- `close` preserves the magic byte. -/
lemma close_magic {σ μ ι : Type} (enc : BatchEncoder σ μ ι) (w : MemoryRecordsBuilder σ) :
    (MemoryRecordsBuilder.close enc w)._magic = w._magic := by
  by_cases hc : w._closed
  · rw [close_of_closed enc w hc]
  · rcases hb : w._builder with _ | s
    · rw [close_of_open_nobuilder enc w hc hb]
    · simp only [MemoryRecordsBuilder.close, if_neg hc, hb]
      by_cases hm : w._magic = 2 <;> simp [hm]

/-- `close` on a pre-V2 writer never assigns the epoch attribute. -/
lemma close_epoch {σ μ ι : Type} (enc : BatchEncoder σ μ ι) (w : MemoryRecordsBuilder σ)
    (h : w._magic < 2) :
    (MemoryRecordsBuilder.close enc w)._producer_epoch = w._producer_epoch := by
  by_cases hc : w._closed
  · rw [close_of_closed enc w hc]
  · rcases hb : w._builder with _ | s
    · rw [close_of_open_nobuilder enc w hc hb]
    · simp only [MemoryRecordsBuilder.close, if_neg hc, hb]
      have hm : ¬w._magic = 2 := by omega
      simp [hm]

/-- Invariant of reachable writer states: an open writer always holds a
builder, and the builder's `build()` has run exactly once when closed and
never while open. -/
lemma writer_inv {σ μ ι : Type} (enc : BatchEncoder σ μ ι)
    (mkDefault : Int → Int → Bool → Int → Int → Int → Nat → σ)
    (mkLegacy : Int → Int → Nat → σ) (w : MemoryRecordsBuilder σ)
    (h : WReachable enc mkDefault mkLegacy w) :
    (w._closed = false → w._builder.isSome) ∧
    w.build_calls = (if w._closed = true then 1 else 0) := by
  induction h with
  | init magic comp batch_size offset transactional pid pe bseq w hinit =>
    unfold MemoryRecordsBuilder.init at hinit
    split_ifs at hinit <;>
      first
        | exact Except.noConfusion hinit
        | (cases hinit; exact ⟨fun _ => rfl, rfl⟩)
  | append w inp _ ih =>
    obtain ⟨h1, h2, h3, h4, h5⟩ := append_pres enc w inp
    rw [h3, h4, h5]
    exact ih
  | skip w n _ ih => exact ih
  | sps w a b c t _ ih =>
    obtain ⟨h1, h2, h3, h4, h5⟩ := sps_pres enc w a b c t
    rw [h3, h4, h5]
    exact ih
  | close w _ ih =>
    by_cases hc : w._closed
    · rw [close_of_closed enc w hc]
      exact ih
    · rcases hb : w._builder with _ | s
      · rw [close_of_open_nobuilder enc w hc hb]
        exact ih
      · have hflag := close_closed_flag enc w hc s hb
        have hcalls := close_calls enc w hc s hb
        refine ⟨fun hfalse => ?_, ?_⟩
        · rw [hflag] at hfalse
          cases hfalse
        · rw [hcalls, hflag, ih.2, if_neg hc]
          simp

/-- C1: `close()` is idempotent — a second (or any later) `close()` leaves
the whole writer state, including the finalized buffer, identical — and on
any reachable writer the encoder's `build()` (which performs compression)
has run exactly once iff the writer is closed, hence exactly once over the
writer's lifetime. -/
theorem claim_C1 {σ μ ι : Type} (enc : BatchEncoder σ μ ι)
    (mkDefault : Int → Int → Bool → Int → Int → Int → Nat → σ)
    (mkLegacy : Int → Int → Nat → σ) (w : MemoryRecordsBuilder σ)
    (h : WReachable enc mkDefault mkLegacy w) :
    MemoryRecordsBuilder.close enc (MemoryRecordsBuilder.close enc w) =
      MemoryRecordsBuilder.close enc w ∧
    (MemoryRecordsBuilder.close enc w).build_calls = 1 ∧
    w.build_calls = (if w._closed = true then 1 else 0) := by
  obtain ⟨inv1, inv2⟩ := writer_inv enc mkDefault mkLegacy w h
  refine ⟨close_close enc w, ?_, inv2⟩
  by_cases hc : w._closed
  · rw [close_of_closed enc w hc, inv2, if_pos hc]
  · rcases hb : w._builder with _ | s
    · exact absurd (inv1 (by simpa using hc)) (by simp [hb])
    · rw [close_calls enc w hc s hb, inv2, if_neg hc]

/-- Witness for C1 on a concrete legacy writer. -/
theorem claim_C1_witness :
    MemoryRecordsBuilder.close encU (MemoryRecordsBuilder.close encU wLeg) =
      MemoryRecordsBuilder.close encU wLeg ∧
    (MemoryRecordsBuilder.close encU wLeg).build_calls = 1 ∧
    wLeg.build_calls = (if wLeg._closed = true then 1 else 0) :=
  claim_C1 encU mkDU mkLU wLeg
    (WReachable.init 0 0 100 0 false (-1) (-1) (-1) wLeg rfl)

/-- C8: `set_producer_state` fails with unsupported-version on any writer
whose magic is below 2, fails with illegal-state on a closed magic-2
writer, leaving the whole state unchanged in both cases; on an open
magic-2 writer it delegates to the encoder and records the new producer
id. -/
theorem claim_C8 {σ μ ι : Type} (enc : BatchEncoder σ μ ι) (w : MemoryRecordsBuilder σ)
    (pid pe bseq : Int) (t : Bool) :
    (w._magic < 2 →
      MemoryRecordsBuilder.set_producer_state enc w pid pe bseq t =
        (some .unsupportedVersion, w)) ∧
    (2 ≤ w._magic → w._closed = true →
      MemoryRecordsBuilder.set_producer_state enc w pid pe bseq t =
        (some .illegalState, w)) ∧
    (2 ≤ w._magic → w._closed = false →
      MemoryRecordsBuilder.set_producer_state enc w pid pe bseq t =
        (none, { w with
          _builder := w._builder.map
            (fun s => enc.set_producer_state s pid pe bseq t)
          _producer_id := some (.pyInt pid) })) := by
  refine ⟨?_, ?_, ?_⟩
  · intro h1
    simp only [MemoryRecordsBuilder.set_producer_state, if_pos h1]
  · intro h1 h2
    simp only [MemoryRecordsBuilder.set_producer_state, if_neg (by omega : ¬w._magic < 2),
      if_pos h2]
  · intro h1 h2
    simp only [MemoryRecordsBuilder.set_producer_state, if_neg (by omega : ¬w._magic < 2),
      if_neg (by simp [h2] : ¬w._closed = true)]

/-- Witness for C8: unsupported-version on a legacy writer, illegal-state
on a closed modern writer. -/
theorem claim_C8_witness :
    MemoryRecordsBuilder.set_producer_state encU wLeg 9 8 7 true =
      (some .unsupportedVersion, wLeg) ∧
    MemoryRecordsBuilder.set_producer_state encU { wMod with _closed := true } 9 8 7 true =
      (some .illegalState, { wMod with _closed := true }) :=
  ⟨(claim_C8 encU wLeg 9 8 7 true).1 (by decide),
   (claim_C8 encU { wMod with _closed := true } 9 8 7 true).2.1 (by decide) (by decide)⟩

/-- C10: a writer constructed with magic < 2 never initialises the
producer-epoch slot — not at construction, not at close — so reading the
`producer_epoch` property raises `AttributeError` (modelled as `none`) at
any point in the writer's lifecycle. -/
theorem claim_C10 {σ μ ι : Type} (enc : BatchEncoder σ μ ι)
    (mkDefault : Int → Int → Bool → Int → Int → Int → Nat → σ)
    (mkLegacy : Int → Int → Nat → σ) (w : MemoryRecordsBuilder σ)
    (h : WReachable enc mkDefault mkLegacy w) (hm : w._magic < 2) :
    w.producer_epoch = none := by
  revert hm
  induction h with
  | init magic comp batch_size offset transactional pid pe bseq w hinit =>
    unfold MemoryRecordsBuilder.init at hinit
    split_ifs at hinit <;>
      first
        | exact Except.noConfusion hinit
        | (cases hinit
           intro hm
           first
             | rfl
             | (exfalso
                simp only at hm
                omega))
  | append w inp _ ih =>
    obtain ⟨h1, h2, h3, h4, h5⟩ := append_pres enc w inp
    intro hm
    rw [h1] at hm
    simpa [MemoryRecordsBuilder.producer_epoch, h2] using ih hm
  | skip w n _ ih => exact ih
  | sps w a b c t _ ih =>
    obtain ⟨h1, h2, h3, h4, h5⟩ := sps_pres enc w a b c t
    intro hm
    rw [h1] at hm
    simpa [MemoryRecordsBuilder.producer_epoch, h2] using ih hm
  | close w _ ih =>
    intro hm
    rw [close_magic enc w] at hm
    simpa [MemoryRecordsBuilder.producer_epoch, close_epoch enc w hm] using ih hm

/-- Witness for C10 on a concrete legacy writer. -/
theorem claim_C10_witness : wLeg.producer_epoch = none :=
  claim_C10 encU mkDU mkLU wLeg
    (WReachable.init 0 0 100 0 false (-1) (-1) (-1) wLeg rfl) (by decide)

/-- Offsets handed to the encoder across a run of appends: the k-th
successful append receives the writer's starting offset plus (k-1). -/
lemma appendRun_offsets {σ μ ι : Type} (enc : BatchEncoder σ μ ι) :
    ∀ (inps : List ι) (w : MemoryRecordsBuilder σ),
      successOffsets (MemoryRecordsBuilder.appendRun enc w inps).1 =
        (List.range ((MemoryRecordsBuilder.appendRun enc w inps).1.filterMap id).length).map
          (fun i : Nat => w._next_offset + (i : Int)) := by
  intro inps
  induction inps with
  | nil => intro w; rfl
  | cons inp rest ih =>
    intro w
    obtain ⟨hnone, hsome⟩ := append_offset enc w inp
    have htl := ih (MemoryRecordsBuilder.append enc w inp).2
    rcases hmd : (MemoryRecordsBuilder.append enc w inp).1 with _ | m
    · rw [hnone hmd] at htl
      simp only [MemoryRecordsBuilder.appendRun, successOffsets] at htl ⊢
      simpa [hmd] using htl
    · rw [hsome m hmd] at htl
      simp only [MemoryRecordsBuilder.appendRun, successOffsets] at htl ⊢
      simp only [hmd, Option.map_some', List.filterMap_cons, id_eq, List.map_cons,
        List.length_cons, List.range_succ_eq_map, List.map_map, List.cons.injEq]
      refine ⟨by simp, ?_⟩
      rw [htl]
      apply List.map_congr_left
      intro a _
      simp only [Function.comp_apply, Nat.succ_eq_add_one]
      push_cast
      ring

/-- C9: `append` returns `none` with no state change on a closed writer;
returns `none` without advancing the offset when the encoder has no
capacity; on success it passes the current logical offset to the encoder,
increments the offset by exactly one, and returns the encoder's metadata —
so the k-th successful append of a run is assigned `startOffset + k - 1`. -/
theorem claim_C9 {σ μ ι : Type} (enc : BatchEncoder σ μ ι) (w : MemoryRecordsBuilder σ)
    (inp : ι) :
    (w._closed = true → MemoryRecordsBuilder.append enc w inp = (none, w)) ∧
    (∀ s s', w._closed = false → w._builder = some s →
      enc.append s w._next_offset inp = (none, s') →
      MemoryRecordsBuilder.append enc w inp = (none, { w with _builder := some s' })) ∧
    (∀ s md s', w._closed = false → w._builder = some s →
      enc.append s w._next_offset inp = (some md, s') →
      MemoryRecordsBuilder.append enc w inp =
        (some md, { w with _builder := some s', _next_offset := w._next_offset + 1 })) ∧
    (∀ inps : List ι,
      successOffsets (MemoryRecordsBuilder.appendRun enc w inps).1 =
        (List.range ((MemoryRecordsBuilder.appendRun enc w inps).1.filterMap id).length).map
          (fun i : Nat => w._next_offset + (i : Int))) := by
  refine ⟨?_, ?_, ?_, fun inps => appendRun_offsets enc inps w⟩
  · intro hc
    simp [MemoryRecordsBuilder.append, if_pos hc]
  · intro s s' hc hb henc
    simp [MemoryRecordsBuilder.append, if_neg (by simp [hc] : ¬w._closed = true), hb, henc]
  · intro s md s' hc hb henc
    simp [MemoryRecordsBuilder.append, if_neg (by simp [hc] : ¬w._closed = true), hb, henc]

/-- Witness for C9: a three-append run on a fresh writer receives offsets
0, 1, 2. -/
theorem claim_C9_witness :
    successOffsets (MemoryRecordsBuilder.appendRun encU wLeg [(), (), ()]).1 =
      (List.range ((MemoryRecordsBuilder.appendRun encU wLeg [(), (), ()]).1.filterMap id).length).map
        (fun i : Nat => wLeg._next_offset + (i : Int)) :=
  (claim_C9 encU wLeg ()).2.2.2 [(), (), ()]

/-- C7: for supported magic (0, 1, 2) and compression kinds (0–4), writer
construction fails — before any bytes are written, producing no writer —
exactly on the invalid-configuration combinations: for magic ≥ 2,
transactional without producer id, or producer id without epoch or without
base sequence; for magic < 2, transactional or any producer id.  All other
combinations construct successfully. -/
theorem claim_C7 {σ : Type} (mkDefault : Int → Int → Bool → Int → Int → Int → Nat → σ)
    (mkLegacy : Int → Int → Nat → σ)
    (magic compression_type : Int) (batch_size : Nat) (offset : Int)
    (transactional : Bool) (producer_id producer_epoch base_sequence : Int)
    (hm : magic = 0 ∨ magic = 1 ∨ magic = 2)
    (hc : compression_type = 0 ∨ compression_type = 1 ∨ compression_type = 2 ∨
          compression_type = 3 ∨ compression_type = 4) :
    (MemoryRecordsBuilder.init mkDefault mkLegacy magic compression_type batch_size offset
        transactional producer_id producer_epoch base_sequence = .error .assertion ↔
      invalidConfig magic transactional producer_id producer_epoch base_sequence) ∧
    (¬invalidConfig magic transactional producer_id producer_epoch base_sequence →
      ∃ wr, MemoryRecordsBuilder.init mkDefault mkLegacy magic compression_type batch_size
        offset transactional producer_id producer_epoch base_sequence = .ok wr) := by
  have hm' := not_not_intro hm
  have hc' := not_not_intro hc
  unfold MemoryRecordsBuilder.init invalidConfig
  rw [if_neg hm', if_neg hc']
  by_cases hge : 2 ≤ magic
  · rw [if_pos hge]
    by_cases hA : transactional ∧ producer_id = -1
    · rw [if_pos hA]
      exact ⟨⟨fun _ => Or.inl ⟨hge, Or.inl hA⟩, fun _ => rfl⟩,
             fun hnb => absurd (Or.inl ⟨hge, Or.inl hA⟩) hnb⟩
    · rw [if_neg hA]
      by_cases hB : producer_id ≠ -1 ∧ producer_epoch = -1
      · rw [if_pos hB]
        exact ⟨⟨fun _ => Or.inl ⟨hge, Or.inr (Or.inl hB)⟩, fun _ => rfl⟩,
               fun hnb => absurd (Or.inl ⟨hge, Or.inr (Or.inl hB)⟩) hnb⟩
      · rw [if_neg hB]
        by_cases hC : producer_id ≠ -1 ∧ base_sequence = -1
        · rw [if_pos hC]
          exact ⟨⟨fun _ => Or.inl ⟨hge, Or.inr (Or.inr hC)⟩, fun _ => rfl⟩,
                 fun hnb => absurd (Or.inl ⟨hge, Or.inr (Or.inr hC)⟩) hnb⟩
        · rw [if_neg hC]
          refine ⟨⟨fun h => absurd h (by simp), fun hb => ?_⟩, fun _ => ⟨_, rfl⟩⟩
          exfalso
          rcases hb with ⟨-, hb⟩ | ⟨hlt, -⟩
          · rcases hb with h | h | h
            · exact hA h
            · exact hB h
            · exact hC h
          · omega
  · rw [if_neg hge]
    by_cases hL : transactional ∨ producer_id ≠ -1
    · rw [if_pos hL]
      exact ⟨⟨fun _ => Or.inr ⟨by omega, hL⟩, fun _ => rfl⟩,
             fun hnb => absurd (Or.inr ⟨by omega, hL⟩) hnb⟩
    · rw [if_neg hL]
      refine ⟨⟨fun h => absurd h (by simp), fun hb => ?_⟩, fun _ => ⟨_, rfl⟩⟩
      exfalso
      rcases hb with ⟨hge2, -⟩ | ⟨-, hb⟩
      · exact hge hge2
      · exact hL hb

/-- Witness for C7: transactional magic-2 construction without a producer
id is an invalid configuration. -/
theorem claim_C7_witness :
    (MemoryRecordsBuilder.init mkDU mkLU 2 0 10 0 true (-1) 5 5 = .error .assertion ↔
      invalidConfig 2 true (-1) 5 5) ∧
    (¬invalidConfig 2 true (-1) 5 5 →
      ∃ wr, MemoryRecordsBuilder.init mkDU mkLU 2 0 10 0 true (-1) 5 5 = .ok wr) :=
  claim_C7 mkDU mkLU 2 0 10 0 true (-1) 5 5 (by decide) (by decide)

/-- The scan step at the boundary of a well-formed batch primes exactly
that batch and advances to its end. -/
lemma cache_next_boundary (A b C : List Nat) (r : MemoryRecords)
    (hb : r._buffer = A ++ (b ++ C)) (hp : r._pos = (A.length : Int))
    (hlen : LOG_OVERHEAD ≤ b.length)
    (hdecl : readI32n b LENGTH_OFFSET = some ((b.length : Int) - (LOG_OVERHEAD : Int))) :
    r.cache_next = some { r with
      _next_slice := some ((A.length : Int), (A.length : Int) + (b.length : Int)),
      _pos := (A.length : Int) + (b.length : Int) } := by
  have hpos : 0 ≤ r._pos := by
    rw [hp]
    exact Int.natCast_nonneg _
  have hblen : (r._buffer.length : Int) =
      (A.length : Int) + (b.length : Int) + (C.length : Int) := by
    rw [hb]
    push_cast [List.length_append]
    ring
  have hlen' : (LOG_OVERHEAD : Int) ≤ (b.length : Int) := by exact_mod_cast hlen
  have hrem : (LOG_OVERHEAD : Int) ≤ (r._buffer.length : Int) - r._pos := by
    rw [hblen, hp]
    have : (0 : Int) ≤ (C.length : Int) := Int.natCast_nonneg _
    omega
  have htoNat : (r._pos + (LENGTH_OFFSET : Int)).toNat = A.length + LENGTH_OFFSET := by
    rw [hp]
    omega
  have hread : readI32n r._buffer (A.length + LENGTH_OFFSET) =
      some ((b.length : Int) - (LOG_OVERHEAD : Int)) := by
    rw [hb, readI32n_append A (b ++ C) LENGTH_OFFSET
          (by simp only [List.length_append, LENGTH_OFFSET, LOG_OVERHEAD] at hlen ⊢; omega),
        readI32n_prefix b C LENGTH_OFFSET
          (by simp only [LENGTH_OFFSET, LOG_OVERHEAD] at hlen ⊢; omega),
        hdecl]
  have hlenval : i32ofU (decodeU (readBytes r._buffer (r._pos + (LENGTH_OFFSET : Int)).toNat 4)) =
      (b.length : Int) - (LOG_OVERHEAD : Int) := by
    have hbound : A.length + LENGTH_OFFSET + 4 ≤ r._buffer.length := by
      rw [hb]
      simp only [List.length_append, LENGTH_OFFSET, LOG_OVERHEAD] at hlen ⊢
      omega
    have h2 := hread
    rw [readI32n_some _ _ hbound] at h2
    rw [htoNat]
    exact Option.some_injective _ h2
  rw [cache_next_read r hpos hrem]
  simp only [hlenval]
  have e1 : r._pos + (LOG_OVERHEAD : Int) + ((b.length : Int) - (LOG_OVERHEAD : Int)) =
      (A.length : Int) + (b.length : Int) := by
    rw [hp]
    ring
  rw [e1, if_neg (by rw [hblen]; have : (0 : Int) ≤ (C.length : Int) := Int.natCast_nonneg _; omega),
      hp]

/-- A fuelled scan from a state that already knows its leftover count
returns immediately. -/
lemma scanToEnd_of_isSome (fuel : Nat) (r : MemoryRecords)
    (h : r._remaining_bytes.isSome) : MemoryRecords.scanToEnd fuel r = some r := by
  cases fuel <;> simp [MemoryRecords.scanToEnd, h]

/-- At a primed boundary, `next_batch` yields exactly the head batch and
leaves the reader primed for the rest. -/
lemma next_batch_primed (rov0 : Nat) (h5 : 5 ≤ rov0) (A b : List Nat)
    (rest : List (List Nat)) (r : MemoryRecords)
    (hwfb : wfBatch rov0 b) (hwfr : ∀ x ∈ rest, wfBatch rov0 x)
    (hp : primedFor r A (b :: rest)) :
    ∃ batch r', r.next_batch rov0 = .ok (some batch, r') ∧ batch.slice = b ∧
      primedFor r' (A ++ b) rest := by
  obtain ⟨hbuf, hpos, hslice⟩ := hp
  obtain ⟨hminlen, hdecl⟩ := hwfb
  have hsl : pySlice r._buffer (A.length : Int) ((A.length : Int) + (b.length : Int)) = b := by
    rw [hbuf]
    exact pySlice_block A b rest.flatten
  have hnlt : ¬b.length < LOG_OVERHEAD + rov0 := by omega
  have hcn : ∃ r', r.cache_next = some r' ∧ primedFor r' (A ++ b) rest := by
    rcases rest with _ | ⟨b', rest'⟩
    · refine ⟨_, cache_next_trunc r ?_, ?_⟩
      · rw [hbuf, hpos]
        simp only [List.flatten_nil, List.append_nil, List.length_append,
          LOG_OVERHEAD]
        push_cast
        omega
      · simp [primedFor]
    · obtain ⟨hminlen', hdecl'⟩ := hwfr b' (by simp)
      have hbd := cache_next_boundary (A ++ b) b' rest'.flatten r
        (by rw [hbuf]; simp [List.flatten_cons, List.append_assoc])
        (by rw [hpos]; push_cast [List.length_append]; ring)
        (by simp only [LOG_OVERHEAD] at hminlen' ⊢; omega) hdecl'
      refine ⟨_, hbd, ?_, ?_, ?_⟩
      · rw [hbuf]
        simp [List.flatten_cons, List.append_assoc]
      · rfl
      · rfl
  obtain ⟨r', hr', hprimed⟩ := hcn
  have hmagic : readI8 b (MAGIC_OFFSET : Int) =
      some (i8ofU (decodeU (readBytes b MAGIC_OFFSET 1))) := by
    rw [readI8_nonneg _ _ (by simp [MAGIC_OFFSET])]
    have ht : ((MAGIC_OFFSET : Nat) : Int).toNat = MAGIC_OFFSET := by omega
    rw [ht]
    exact readI8n_some _ _ (by simp only [MAGIC_OFFSET, LOG_OVERHEAD] at hminlen ⊢; omega)
  by_cases hm1 : i8ofU (decodeU (readBytes b MAGIC_OFFSET 1)) ≤ 1
  · refine ⟨.legacy b (i8ofU (decodeU (readBytes b MAGIC_OFFSET 1))), r', ?_, rfl, hprimed⟩
    simp only [MemoryRecords.next_batch, hslice, hsl, if_neg hnlt, hr', hmagic, if_pos hm1]
  · refine ⟨.default b, r', ?_, rfl, hprimed⟩
    simp only [MemoryRecords.next_batch, hslice, hsl, if_neg hnlt, hr', hmagic, if_neg hm1]

/-- From a primed boundary state the reader yields exactly the remaining
batches, in order. -/
lemma reads_of_primed (rov0 : Nat) (h5 : 5 ≤ rov0) :
    ∀ (bs : List (List Nat)) (A : List Nat) (r : MemoryRecords),
      (∀ x ∈ bs, wfBatch rov0 x) → primedFor r A bs →
      readsExactlyB rov0 r bs = true := by
  intro bs
  induction bs with
  | nil =>
    intro A r _ hp
    simp only [primedFor] at hp
    simp [readsExactlyB, MemoryRecords.has_next, hp, MemoryRecords.next_batch]
  | cons b rest ih =>
    intro A r hwf hp
    obtain ⟨batch, r', hnb, hbs, hp'⟩ :=
      next_batch_primed rov0 h5 A b rest r (hwf b (by simp))
        (fun x hx => hwf x (by simp [hx])) hp
    have hhn : r.has_next = true := by
      obtain ⟨-, -, hslice⟩ := hp
      simp [MemoryRecords.has_next, hslice]
    simp only [readsExactlyB, hhn, hnb, hbs, Bool.true_and]
    simp [ih (A ++ b) r' (fun x hx => hwf x (by simp [hx])) hp']

/-- The `valid_bytes` scan from a batch boundary over well-formed batches
ends with zero leftover bytes. -/
lemma scanToEnd_boundary (rov0 : Nat) :
    ∀ (bs : List (List Nat)) (D : List Nat) (r : MemoryRecords) (fuel : Nat),
      (∀ x ∈ bs, wfBatch rov0 x) →
      r._buffer = D ++ bs.flatten → r._pos = (D.length : Int) →
      r._remaining_bytes = none → bs.length + 1 ≤ fuel →
      ∃ r', MemoryRecords.scanToEnd fuel r = some r' ∧ r'._remaining_bytes = some 0 := by
  intro bs
  induction bs with
  | nil =>
    intro D r fuel _ hbuf hpos hrem hfuel
    rcases fuel with _ | fuel
    · omega
    · have hzero : (r._buffer.length : Int) - r._pos = 0 := by
        rw [hbuf, hpos]
        simp
      have htr := cache_next_trunc r (by rw [hzero]; simp [LOG_OVERHEAD])
      rw [hzero] at htr
      refine ⟨{ r with _remaining_bytes := some 0, _next_slice := none }, ?_, rfl⟩
      have hstep : MemoryRecords.scanToEnd (fuel + 1) r =
          MemoryRecords.scanToEnd fuel
            { r with _remaining_bytes := some 0, _next_slice := none } := by
        simp [MemoryRecords.scanToEnd, hrem, htr]
      rw [hstep]
      exact scanToEnd_of_isSome fuel _ rfl
  | cons b rest ih =>
    intro D r fuel hwf hbuf hpos hrem hfuel
    rcases fuel with _ | fuel
    · omega
    · obtain ⟨hminlen, hdecl⟩ := hwf b (by simp)
      have hbd := cache_next_boundary D b rest.flatten r
        (by rw [hbuf]; simp [List.flatten_cons]) hpos
        (by simp only [LOG_OVERHEAD] at hminlen ⊢; omega) hdecl
      obtain ⟨r', hscan, hrem'⟩ := ih (D ++ b)
        { r with
          _next_slice := some ((D.length : Int), (D.length : Int) + (b.length : Int)),
          _pos := (D.length : Int) + (b.length : Int) }
        fuel (fun x hx => hwf x (by simp [hx]))
        (by rw [hbuf]; simp [List.flatten_cons, List.append_assoc])
        (by push_cast [List.length_append]; ring)
        hrem (by simp only [List.length_cons] at hfuel; omega)
      refine ⟨r', ?_, hrem'⟩
      have hstep : MemoryRecords.scanToEnd (fuel + 1) r =
          MemoryRecords.scanToEnd fuel
            { r with
              _next_slice := some ((D.length : Int), (D.length : Int) + (b.length : Int)),
              _pos := (D.length : Int) + (b.length : Int) } := by
        simp [MemoryRecords.scanToEnd, hrem, hbd]
      rw [hstep]
      exact hscan

/-- C3: over a buffer formed by concatenating N well-formed batches (any
mix of magic bytes), the reader yields exactly the N batch views in buffer
order — `has_next` true before each call, false afterwards with a final
no-op `next_batch` — and `valid_bytes` equals `size_in_bytes`. -/
theorem claim_C3 (rov0 : Nat) (bs : List (List Nat)) (h5 : 5 ≤ rov0)
    (hwf : ∀ x ∈ bs, wfBatch rov0 x) :
    ∃ r₀, MemoryRecords.init bs.flatten = some r₀ ∧
      readsExactlyB rov0 r₀ bs = true ∧
      ∃ r', r₀.valid_bytes (bs.length + 1) = some ((r₀.size_in_bytes : Int), r') := by
  cases bs with
  | nil =>
    refine ⟨{ _buffer := [], _pos := 0, _next_slice := none, _remaining_bytes := some 0 },
      by decide, ?_, ?_⟩
    · simp [readsExactlyB, MemoryRecords.has_next, MemoryRecords.next_batch]
    · exact ⟨{ _buffer := [], _pos := 0, _next_slice := none, _remaining_bytes := some 0 },
        by decide⟩
  | cons b rest =>
    obtain ⟨hminlen, hdecl⟩ := hwf b (by simp)
    have hbd := cache_next_boundary [] b rest.flatten
        { _buffer := (b :: rest).flatten, _pos := 0, _next_slice := none,
          _remaining_bytes := none }
        (by simp [List.flatten_cons]) (by simp)
        (by simp only [LOG_OVERHEAD] at hminlen ⊢; omega) hdecl
    have hex : ∃ R, MemoryRecords.init (b :: rest).flatten = some R ∧
        primedFor R [] (b :: rest) ∧ R._remaining_bytes = none ∧
        R._buffer = (b :: rest).flatten ∧ R._pos = (b.length : Int) := by
      refine ⟨_, hbd, ⟨?_, rfl, rfl⟩, rfl, rfl, ?_⟩
      · simp [List.flatten_cons]
      · simp
    obtain ⟨R, hR, hprimed, hrem, hbufR, hposR⟩ := hex
    refine ⟨R, hR, reads_of_primed rov0 h5 (b :: rest) [] R hwf hprimed, ?_⟩
    obtain ⟨r₁, hscan, hrem0⟩ := scanToEnd_boundary rov0 rest b R ((b :: rest).length + 1)
      (fun x hx => hwf x (by simp [hx]))
      (by rw [hbufR]; simp [List.flatten_cons]) hposR hrem
      (by simp only [List.length_cons]; omega)
    have hpost := scanToEnd_post _ R r₁ hscan
    refine ⟨{ r₁ with _next_slice := R._next_slice, _pos := R._pos }, ?_⟩
    simp only [MemoryRecords.valid_bytes, hrem, hscan]
    simp [MemoryRecords.size_in_bytes, hrem0, hpost.2, hbufR]

/-- Witness for C3 on a two-batch legacy/modern buffer. -/
theorem claim_C3_witness :
    ∃ r₀, MemoryRecords.init ([cbuf1, cbuf2]).flatten = some r₀ ∧
      readsExactlyB 14 r₀ [cbuf1, cbuf2] = true ∧
      ∃ r', r₀.valid_bytes ([cbuf1, cbuf2].length + 1) =
        some ((r₀.size_in_bytes : Int), r') :=
  claim_C3 14 [cbuf1, cbuf2] (by decide) (by decide)
